import Mathlib

/-!
Shallow embedding of the k-nucleotide subsequence counter (the final,
hash-table based round of the program): the symbol encoder (`toNum`
replacer), the window-key packer (`encode`), the sequence scanner
(`count`), and the fixed-bucket chained hash counter (`hash`, `get`,
`inc`).  Go byte values are `Nat` (< 256), `uint64` values are `Nat`
reduced modulo `2 ^ 64` where overflow can occur, Go `int` is `Int`
obtained by two's-complement reinterpretation, and operations that can
panic (out-of-range array indexing) return `Option`.
-/

namespace KNucleotide

/-- Go: `toNum = strings.NewReplacer("A", 0, "C", 1, "G", 2, "T", 3)`,
applied bytewise.  Bytes other than `A` (65), `C` (67), `G` (71),
`T` (84) are left unchanged by the replacer. -/
def toNumByte (b : Nat) : Nat :=
  if b = 65 then 0
  else if b = 67 then 1
  else if b = 71 then 2
  else if b = 84 then 3
  else b

/-- Go: `read()` — each input line is passed through `toNum.Replace` and
the results are concatenated (the scanner strips the newlines). -/
def readModel (lines : List (List Nat)) : List Nat :=
  (lines.map (fun l => l.map toNumByte)).flatten

/-- Go: `const hashSize = 1 << 18`. -/
def hashSize : Nat := 1 <<< 18

/-- Two's-complement reinterpretation of a `uint64` value as a Go
(64-bit) `int`, as performed by the conversion `int(key)`. -/
def toInt64 (k : Nat) : Int :=
  if k % 2 ^ 64 < 2 ^ 63 then ((k % 2 ^ 64 : Nat) : Int)
  else ((k % 2 ^ 64 : Nat) : Int) - 2 ^ 64

/-- Go: `func hash(key uint64) int { return int(key) % hashSize }`.
Go's `%` is the truncated remainder (`Int.tmod`), whose result is
negative for a negative dividend. -/
def hash (key : Nat) : Int :=
  Int.tmod (toInt64 key) (hashSize : Int)

/-- Go: `type entry struct { key uint64; value int; next *entry }`.
The `next` pointers of one bucket are modelled by the enclosing
`List entry`.  The `value` field only ever holds `1` plus the number of
subsequent increments, so it is modelled as `Nat`. -/
structure entry where
  key : Nat
  value : Nat
deriving DecidableEq

/-- Go: `type hashCounter struct { entries [hashSize]*entry }`, as a
total function on indices; only indices below `hashSize` are ever
populated. -/
structure hashCounter where
  entries : Nat → List entry

/-- The zero value of `hashCounter`: every bucket is `nil`. -/
def hashCounter.empty : hashCounter := ⟨fun _ => []⟩

/-- The chain walk of `get`: value of the first entry whose key
matches, `0` when the chain is exhausted. -/
def chainGet (key : Nat) : List entry → Nat
  | [] => 0
  | e :: es => if e.key = key then e.value else chainGet key es

/-- Go: `func (hc *hashCounter) get(key uint64) int`.  The array access
`hc.entries[hash(key)]` panics when the index is outside
`[0, hashSize)`; the panic is modelled as `none`. -/
def hashCounter.get (hc : hashCounter) (key : Nat) : Option Nat :=
  let h := hash key
  if 0 ≤ h ∧ h < (hashSize : Nat) then
    some (chainGet key (hc.entries h.toNat))
  else none

/-- The found-case of the `inc` loop: increment the value of the first
entry whose key matches, in place. -/
def incFirst (k : Nat) : List entry → List entry
  | [] => []
  | e :: es => if e.key = k then ⟨e.key, e.value + 1⟩ :: es else e :: incFirst k es

/-- The effect of `inc` on the chain of the selected bucket: increment
the first matching entry if one exists, otherwise prepend a fresh
`{k, 1, nil}` entry (both branches of the final `if` in the Go code
prepend). -/
def chainInc (k : Nat) (es : List entry) : List entry :=
  if es.any (fun e => e.key == k) then incFirst k es else ⟨k, 1⟩ :: es

/-- Go: `func (hc *hashCounter) inc(k uint64)`.  The array access
`hc.entries[h]` panics when the index is outside `[0, hashSize)`; the
panic is modelled as `none`. -/
def hashCounter.inc (hc : hashCounter) (k : Nat) : Option hashCounter :=
  let h := hash k
  if 0 ≤ h ∧ h < (hashSize : Nat) then
    some ⟨fun i => if i = h.toNat then chainInc k (hc.entries i) else hc.entries i⟩
  else none

/-- Go: `func encode(sequence []byte) uint64` — fold
`num = (num << 2) | uint64(char)` over the sequence, in `uint64`
arithmetic. -/
def encode (sequence : List Nat) : Nat :=
  sequence.foldl (fun num char => ((num <<< 2) % 2 ^ 64) ||| char) 0

/-- Number of loop iterations of `count`: the Go loop runs for
`i = 0 .. len(dna)-length` (no iterations when `length > len(dna)`). -/
def numWindows (n length : Nat) : Nat := n + 1 - length

/-- The window `dna[i : i+length]` scanned at position `i`. -/
def window (dna : List Nat) (length i : Nat) : List Nat :=
  (dna.drop i).take length

/-- Iterated `inc`: the sequence of `counts.inc(key)` calls performed
by `count`, stopping (with `none`) if one of them panics. -/
def incs (t : hashCounter) (ks : List Nat) : Option hashCounter :=
  ks.foldlM hashCounter.inc t

/-- Go: `func count(dna []byte, length int) (counts hashCounter)` —
for each window position, encode the window and increment its key,
starting from the zero-valued table. -/
def count (dna : List Nat) (length : Nat) : Option hashCounter :=
  (List.range (numWindows dna.length length)).foldlM
    (fun counts i => counts.inc (encode (window dna length i)))
    hashCounter.empty

/-- The keys fed to the counter by `count`, in order. -/
def keyList (dna : List Nat) (length : Nat) : List Nat :=
  (List.range (numWindows dna.length length)).map
    (fun i => encode (window dna length i))

/-- Brute-force ground truth: the number of starting positions at which
the window `w` occurs in `dna`. -/
def bruteCount (dna : List Nat) (length : Nat) (w : List Nat) : Nat :=
  ((List.range (numWindows dna.length length)).filter
    (fun i => window dna length i == w)).length

/-- The pure (no-overflow) base-4 value of a code sequence,
most-significant code first. -/
def natVal (w : List Nat) : Nat :=
  w.foldl (fun n c => n * 4 + c) 0

/-- The base-4 digit expansion `Σ w[j] * 4 ^ (L-1-j)`. -/
def digitsSum (w : List Nat) : Nat :=
  ((List.range w.length).map (fun j => w.getD j 0 * 4 ^ (w.length - 1 - j))).sum

/-- A key whose bucket index passes the bounds check in `get`/`inc`. -/
abbrev validKey (k : Nat) : Prop := 0 ≤ hash k ∧ hash k < (hashSize : Nat)

/-- All entries of the whole table whose key is `k`, across every
bucket of the array. -/
def entriesFor (t : hashCounter) (k : Nat) : List entry :=
  ((List.range hashSize).map
    (fun i => (t.entries i).filter (fun e => e.key == k))).flatten

/-- Modelled from the spec (§4.2 Window Key Packer), which the source
does not implement — `count` re-encodes every window from scratch:
"shift the previous key left by 2 bits, OR in the new code, and mask to
keep exactly `2*L` bits". -/
def incStepSpec (L prev c : Nat) : Nat :=
  ((prev <<< 2) ||| c) &&& (2 ^ (2 * L) - 1)

/-! ### List decomposition helpers -/

theorem drop_eq_getD_cons {α : Type} (d : α) :
    ∀ (l : List α) (n : Nat), n < l.length → l.drop n = l.getD n d :: l.drop (n + 1)
  | a :: l, 0, _ => rfl
  | a :: l, n + 1, h => by
    simp only [List.drop_succ_cons, List.getD_cons_succ]
    exact drop_eq_getD_cons d l n (by simpa using h)
  | [], n, h => by simp at h

theorem take_eq_append_getD {α : Type} (d : α) :
    ∀ (l : List α) (n : Nat), n < l.length → l.take (n + 1) = l.take n ++ [l.getD n d]
  | a :: l, 0, _ => rfl
  | a :: l, n + 1, h => by
    simp only [List.take_succ_cons, List.getD_cons_succ, List.cons_append]
    exact congrArg (a :: ·) (take_eq_append_getD d l n (by simpa using h))
  | [], n, h => by simp at h

theorem getD_mem {α : Type} (d : α) (l : List α) (n : Nat) (h : n < l.length) :
    l.getD n d ∈ l := by
  rw [List.getD_eq_getElem?_getD, List.getElem?_eq_getElem h]
  exact List.getElem_mem h

/-! ### Bit-level arithmetic helpers -/

theorem lor_four_mul (p c : Nat) (hc : c < 4) : (p * 4) ||| c = p * 4 + c := by
  have h := @Nat.mul_add_lt_is_or 2 c (by omega) p
  have h4 : (2 : Nat) ^ 2 = 4 := by norm_num
  rw [h4, Nat.mul_comm 4 p] at h
  exact h.symm

/-! ### The pure value of a code sequence -/

theorem natVal_from : ∀ (w : List Nat) (n : Nat),
    w.foldl (fun a c => a * 4 + c) n = n * 4 ^ w.length + natVal w
  | [], n => by simp [natVal]
  | c :: w, n => by
    have h1 := natVal_from w (n * 4 + c)
    have h2 := natVal_from w c
    simp only [List.foldl_cons, List.length_cons, natVal, Nat.zero_mul, Nat.zero_add]
    rw [h1, h2]
    ring

theorem natVal_cons (c : Nat) (w : List Nat) :
    natVal (c :: w) = c * 4 ^ w.length + natVal w := by
  have := natVal_from w c
  simpa [natVal] using this

theorem natVal_append_singleton (w : List Nat) (c : Nat) :
    natVal (w ++ [c]) = natVal w * 4 + c := by
  simp [natVal, List.foldl_append]

theorem natVal_lt : ∀ (w : List Nat), (∀ c ∈ w, c ≤ 3) → natVal w < 4 ^ w.length
  | [], _ => by simp [natVal]
  | c :: w, h => by
    have hc : c ≤ 3 := h c (by simp)
    have ih := natVal_lt w (fun x hx => h x (by simp [hx]))
    rw [natVal_cons]
    have : c * 4 ^ w.length ≤ 3 * 4 ^ w.length := Nat.mul_le_mul_right _ hc
    calc c * 4 ^ w.length + natVal w < c * 4 ^ w.length + 4 ^ w.length :=
          Nat.add_lt_add_left ih _
      _ ≤ 3 * 4 ^ w.length + 4 ^ w.length := Nat.add_le_add_right this _
      _ = 4 ^ (w.length + 1) := by ring
      _ = 4 ^ (c :: w).length := by simp

/-! ### `encode` computes the pure value when the key fits in 64 bits -/

theorem encode_from : ∀ (w : List Nat) (n : Nat), (∀ c ∈ w, c ≤ 3) →
    n * 4 ^ w.length + natVal w < 2 ^ 64 →
    w.foldl (fun num char => ((num <<< 2) % 2 ^ 64) ||| char) n =
      n * 4 ^ w.length + natVal w
  | [], n, _, _ => by simp [natVal]
  | c :: w, n, hcode, hlt => by
    have hc : c ≤ 3 := hcode c (by simp)
    have hn4 : n * 4 ≤ n * 4 ^ (c :: w).length := by
      have : (4 : Nat) ≤ 4 ^ (c :: w).length := by
        calc (4 : Nat) = 4 ^ 1 := by norm_num
          _ ≤ 4 ^ (c :: w).length := Nat.pow_le_pow_right (by norm_num) (by simp)
      exact Nat.mul_le_mul_left n this
    have hstep : ((n <<< 2) % 2 ^ 64) ||| c = n * 4 + c := by
      rw [Nat.shiftLeft_eq]
      have h4 : (2 : Nat) ^ 2 = 4 := by norm_num
      rw [h4, Nat.mod_eq_of_lt (by omega), lor_four_mul n c (by omega)]
    have hncv : natVal (c :: w) = c * 4 ^ w.length + natVal w := natVal_cons c w
    have hrearr : (n * 4 + c) * 4 ^ w.length + natVal w =
        n * 4 ^ (c :: w).length + natVal (c :: w) := by
      rw [hncv]; simp [List.length_cons]; ring
    have ih := encode_from w (n * 4 + c) (fun x hx => hcode x (by simp [hx]))
      (by rw [hrearr]; exact hlt)
    simp only [List.foldl_cons]
    rw [hstep, ih, hrearr]

theorem encode_eq_natVal (w : List Nat) (hcode : ∀ c ∈ w, c ≤ 3)
    (hlen : 2 * w.length ≤ 64) : encode w = natVal w := by
  have hval : natVal w < 4 ^ w.length := natVal_lt w hcode
  have hpow : (4 : Nat) ^ w.length ≤ 2 ^ 64 := by
    calc (4 : Nat) ^ w.length = 2 ^ (2 * w.length) := by
          rw [Nat.pow_mul]
      _ ≤ 2 ^ 64 := Nat.pow_le_pow_right (by norm_num) hlen
  have := encode_from w 0 hcode (by simpa using Nat.lt_of_lt_of_le hval hpow)
  simpa [encode] using this

theorem natVal_inj : ∀ (u w : List Nat), (∀ c ∈ u, c ≤ 3) → (∀ c ∈ w, c ≤ 3) →
    u.length = w.length → natVal u = natVal w → u = w
  | [], [], _, _, _, _ => rfl
  | [], w :: ws, _, _, h, _ => by simp at h
  | u :: us, [], _, _, h, _ => by simp at h
  | a :: us, b :: ws, hu, hw, hlen, hval => by
    have ha : a ≤ 3 := hu a (by simp)
    have hb : b ≤ 3 := hw b (by simp)
    have hus : ∀ c ∈ us, c ≤ 3 := fun x hx => hu x (by simp [hx])
    have hws : ∀ c ∈ ws, c ≤ 3 := fun x hx => hw x (by simp [hx])
    have hl : us.length = ws.length := by simpa using hlen
    have h1 : natVal us < 4 ^ us.length := natVal_lt us hus
    have h2 : natVal ws < 4 ^ us.length := hl ▸ natVal_lt ws hws
    rw [natVal_cons, natVal_cons, ← hl] at hval
    have hpos : 0 < 4 ^ us.length := Nat.pos_pow_of_pos _ (by norm_num)
    have hab : a = b ∧ natVal us = natVal ws := by
      set B := 4 ^ us.length with hB
      interval_cases a <;> interval_cases b <;> omega
    rw [hab.1, natVal_inj us ws hus hws hl hab.2]

theorem digitsSum_append_singleton (w : List Nat) (c : Nat) :
    digitsSum (w ++ [c]) = 4 * digitsSum w + c := by
  unfold digitsSum
  have hlen : (w ++ [c]).length = w.length + 1 := by simp
  rw [hlen, List.range_succ, List.map_append, List.sum_append]
  have hlast : ((w ++ [c]).getD w.length 0) * 4 ^ (w.length + 1 - 1 - w.length) = c := by
    rw [List.getD_eq_getElem?_getD, List.getElem?_append_right (Nat.le_refl _)]
    simp
  have hinit : (List.range w.length).map
      (fun j => (w ++ [c]).getD j 0 * 4 ^ (w.length + 1 - 1 - j)) =
      (List.range w.length).map
      (fun j => 4 * (w.getD j 0 * 4 ^ (w.length - 1 - j))) := by
    apply List.map_congr_left
    intro j hj
    have hjlt : j < w.length := List.mem_range.mp hj
    have hgd : (w ++ [c]).getD j 0 = w.getD j 0 := by
      rw [List.getD_eq_getElem?_getD, List.getD_eq_getElem?_getD,
        List.getElem?_append_left hjlt]
    have hpow : (4 : Nat) ^ (w.length + 1 - 1 - j) = 4 ^ (w.length - 1 - j) * 4 := by
      rw [← Nat.pow_succ]
      congr 1
      omega
    rw [hgd, hpow]
    ring
  simp only [List.map_cons, List.map_nil, List.sum_cons, List.sum_nil, Nat.add_zero]
  rw [hlast, hinit, List.sum_map_mul_left]

theorem natVal_eq_digitsSum (w : List Nat) : natVal w = digitsSum w := by
  induction w using List.reverseRecOn with
  | nil => rfl
  | append_singleton u c ih =>
    rw [natVal_append_singleton, digitsSum_append_singleton, ih]
    ring

/-! ### The hash function on keys below `2 ^ 63` -/

theorem hashSize_eq : hashSize = 2 ^ 18 := by decide

theorem hash_of_lt (k : Nat) (hk : k < 2 ^ 63) :
    hash k = ((k % hashSize : Nat) : Int) := by
  have h1 : k % 2 ^ 64 = k := Nat.mod_eq_of_lt (by omega)
  simp only [hash, toInt64, h1, hk, if_pos]
  exact (Int.ofNat_tmod k hashSize).symm

theorem validKey_of_lt (k : Nat) (hk : k < 2 ^ 63) : validKey k := by
  constructor
  · rw [hash_of_lt k hk]
    exact Int.natCast_nonneg _
  · rw [hash_of_lt k hk]
    exact_mod_cast Nat.mod_lt _ (by decide)

theorem hash_toNat_of_lt (k : Nat) (hk : k < 2 ^ 63) :
    (hash k).toNat = k % hashSize := by
  rw [hash_of_lt k hk]
  rfl

/-! ### `encode` always computes the pure value reduced modulo `2 ^ 64` -/

theorem encodeStep_eq (n c : Nat) (hc : c ≤ 3) :
    (((n % 2 ^ 64) <<< 2) % 2 ^ 64) ||| c = (n * 4 + c) % 2 ^ 64 := by
  have hsplit : (2 : Nat) ^ 64 = 4 * 2 ^ 62 := by norm_num
  have h1 : ((n % 2 ^ 64) <<< 2) = (n % 2 ^ 64) * 4 := by
    rw [Nat.shiftLeft_eq]
  have h2 : (n % 2 ^ 64) * 4 % 2 ^ 64 = n * 4 % 2 ^ 64 := by
    rw [Nat.mul_mod n 4]
    norm_num
  have h3 : n * 4 % 2 ^ 64 = 4 * (n % 2 ^ 62) := by
    rw [Nat.mul_comm n 4, hsplit, Nat.mul_mod_mul_left]
  have hb : n % 2 ^ 62 < 2 ^ 62 := Nat.mod_lt _ (by norm_num)
  have h4 : (4 * (n % 2 ^ 62)) ||| c = 4 * (n % 2 ^ 62) + c := by
    rw [Nat.mul_comm 4 (n % 2 ^ 62)]
    exact lor_four_mul _ c (by omega)
  have h5 : (n * 4 + c) % 2 ^ 64 = 4 * (n % 2 ^ 62) + c := by
    rw [Nat.add_mod, h3]
    have hcm : c % 2 ^ 64 = c := Nat.mod_eq_of_lt (by omega)
    rw [hcm]
    exact Nat.mod_eq_of_lt (by omega)
  rw [h1, h2, h3, h5]
  exact h4

theorem encode_from_mod : ∀ (w : List Nat) (n : Nat), (∀ c ∈ w, c ≤ 3) →
    w.foldl (fun num char => ((num <<< 2) % 2 ^ 64) ||| char) (n % 2 ^ 64) =
      (w.foldl (fun a c => a * 4 + c) n) % 2 ^ 64
  | [], _, _ => by simp
  | c :: w, n, h => by
    have hc : c ≤ 3 := h c (by simp)
    simp only [List.foldl_cons]
    rw [encodeStep_eq n c hc]
    exact encode_from_mod w (n * 4 + c) (fun x hx => h x (by simp [hx]))

theorem encode_eq_natVal_mod (w : List Nat) (h : ∀ c ∈ w, c ≤ 3) :
    encode w = natVal w % 2 ^ 64 := by
  have := encode_from_mod w 0 h
  simpa [encode, natVal] using this

/-! ### Chain lemmas -/

theorem chainGet_eq_zero (k : Nat) :
    ∀ (es : List entry), (∀ e ∈ es, e.key ≠ k) → chainGet k es = 0
  | [], _ => rfl
  | e :: es, h => by
    have hek : e.key ≠ k := h e (by simp)
    simp only [chainGet, if_neg hek]
    exact chainGet_eq_zero k es (fun x hx => h x (by simp [hx]))

theorem chainGet_eq_of_mem (k : Nat) :
    ∀ (es : List entry), (es.map entry.key).Nodup →
      ∀ e ∈ es, e.key = k → chainGet k es = e.value
  | [], _, e, he, _ => by simp at he
  | e0 :: es, hnd, e, he, hek => by
    simp only [List.map_cons, List.nodup_cons] at hnd
    by_cases h0 : e0.key = k
    · have heq : e = e0 := by
        rcases List.mem_cons.mp he with h | h
        · exact h
        · exfalso
          have hmem : e.key ∈ es.map entry.key := List.mem_map_of_mem entry.key h
          rw [hek, ← h0] at hmem
          exact hnd.1 hmem
      simp only [chainGet, if_pos h0, heq]
    · have hmem : e ∈ es := by
        rcases List.mem_cons.mp he with h | h
        · exact absurd (h ▸ hek) h0
        · exact h
      simp only [chainGet, if_neg h0]
      exact chainGet_eq_of_mem k es hnd.2 e hmem hek

theorem incFirst_keys (k : Nat) :
    ∀ (es : List entry), (incFirst k es).map entry.key = es.map entry.key
  | [] => rfl
  | e :: es => by
    by_cases h : e.key = k
    · simp [incFirst, if_pos h]
    · simp only [incFirst, if_neg h, List.map_cons]
      rw [incFirst_keys k es]

theorem incFirst_length (k : Nat) :
    ∀ (es : List entry), (incFirst k es).length = es.length
  | [] => rfl
  | e :: es => by
    by_cases h : e.key = k
    · simp [incFirst, if_pos h]
    · simp only [incFirst, if_neg h, List.length_cons]
      rw [incFirst_length k es]

theorem chainInc_of_not_mem (k : Nat) (es : List entry)
    (h : ∀ e ∈ es, e.key ≠ k) : chainInc k es = ⟨k, 1⟩ :: es := by
  have hany : es.any (fun e => e.key == k) = false := by
    rw [List.any_eq_false]
    intro e he
    simp [h e he]
  simp [chainInc, hany]

theorem chainInc_of_mem (k : Nat) (es : List entry)
    (h : ∃ e ∈ es, e.key = k) : chainInc k es = incFirst k es := by
  have hany : es.any (fun e => e.key == k) = true := by
    rw [List.any_eq_true]
    obtain ⟨e, he, hek⟩ := h
    exact ⟨e, he, by simp [hek]⟩
  simp [chainInc, hany]

theorem mem_incFirst (k : Nat) :
    ∀ (es : List entry), (es.map entry.key).Nodup →
      (∃ e ∈ es, e.key = k) → ∀ e' : entry,
      (e' ∈ incFirst k es ↔ (e' ∈ es ∧ e'.key ≠ k) ∨ e' = ⟨k, chainGet k es + 1⟩)
  | [], _, hex, e' => by simp at hex
  | e0 :: es, hnd, hex, e' => by
    simp only [List.map_cons, List.nodup_cons] at hnd
    by_cases h0 : e0.key = k
    · have hknotin : ∀ e ∈ es, e.key ≠ k := by
        intro e he hek
        apply hnd.1
        rw [h0, ← hek]
        exact List.mem_map_of_mem entry.key he
      simp only [incFirst, if_pos h0, chainGet, List.mem_cons]
      constructor
      · rintro (h | h)
        · right
          rw [h, h0]
        · left
          exact ⟨Or.inr h, hknotin e' h⟩
      · rintro (⟨hmem, hne⟩ | h)
        · rcases hmem with h | h
          · exact absurd (h ▸ h0) hne
          · exact Or.inr h
        · left
          rw [h, h0]
    · have hex' : ∃ e ∈ es, e.key = k := by
        obtain ⟨e, he, hek⟩ := hex
        rcases List.mem_cons.mp he with h | h
        · exact absurd (h ▸ hek) h0
        · exact ⟨e, h, hek⟩
      have ih := mem_incFirst k es hnd.2 hex' e'
      simp only [incFirst, if_neg h0, chainGet, List.mem_cons]
      constructor
      · rintro (h | h)
        · left
          constructor
          · exact Or.inl h
          · rw [h]; exact h0
        · rcases ih.mp h with ⟨hmem, hne⟩ | h
          · exact Or.inl ⟨Or.inr hmem, hne⟩
          · exact Or.inr h
      · rintro (⟨hmem, hne⟩ | h)
        · rcases hmem with h | h
          · exact Or.inl h
          · exact Or.inr (ih.mpr (Or.inl ⟨h, hne⟩))
        · exact Or.inr (ih.mpr (Or.inr h))

theorem mem_chainInc (k : Nat) (es : List entry) (hnd : (es.map entry.key).Nodup)
    (e' : entry) :
    e' ∈ chainInc k es ↔ (e' ∈ es ∧ e'.key ≠ k) ∨ e' = ⟨k, chainGet k es + 1⟩ := by
  by_cases hex : ∃ e ∈ es, e.key = k
  · rw [chainInc_of_mem k es hex]
    exact mem_incFirst k es hnd hex e'
  · push_neg at hex
    rw [chainInc_of_not_mem k es hex, chainGet_eq_zero k es hex]
    simp only [List.mem_cons]
    constructor
    · rintro (h | h)
      · exact Or.inr h
      · exact Or.inl ⟨h, hex e' h⟩
    · rintro (⟨hmem, _⟩ | h)
      · exact Or.inr hmem
      · exact Or.inl h

theorem chainInc_keys_of_mem (k : Nat) (es : List entry)
    (h : ∃ e ∈ es, e.key = k) :
    (chainInc k es).map entry.key = es.map entry.key := by
  rw [chainInc_of_mem k es h]
  exact incFirst_keys k es

theorem chainInc_nodup (k : Nat) (es : List entry)
    (hnd : (es.map entry.key).Nodup) :
    ((chainInc k es).map entry.key).Nodup := by
  by_cases hex : ∃ e ∈ es, e.key = k
  · rw [chainInc_keys_of_mem k es hex]
    exact hnd
  · push_neg at hex
    rw [chainInc_of_not_mem k es hex]
    simp only [List.map_cons, List.nodup_cons]
    refine ⟨?_, hnd⟩
    intro hmem
    obtain ⟨e, he, hek⟩ := List.mem_map.mp hmem
    exact hex e he hek

theorem incFirst_filter_ne (k : Nat) :
    ∀ (es : List entry),
      (incFirst k es).filter (fun e => !(e.key == k)) =
        es.filter (fun e => !(e.key == k))
  | [] => rfl
  | e :: es => by
    by_cases h : e.key = k
    · simp only [incFirst, if_pos h]
      rw [List.filter_cons_of_neg (by simp [h]), List.filter_cons_of_neg (by simp [h])]
    · simp only [incFirst, if_neg h]
      rw [List.filter_cons_of_pos (by simp [h]), List.filter_cons_of_pos (by simp [h]),
        incFirst_filter_ne k es]

theorem chainInc_filter_ne (k : Nat) (es : List entry) :
    (chainInc k es).filter (fun e => !(e.key == k)) =
      es.filter (fun e => !(e.key == k)) := by
  by_cases hex : ∃ e ∈ es, e.key = k
  · rw [chainInc_of_mem k es hex]
    exact incFirst_filter_ne k es
  · push_neg at hex
    rw [chainInc_of_not_mem k es hex]
    rw [List.filter_cons_of_neg (by simp)]

theorem incFirst_preserve (k : Nat) :
    ∀ (es : List entry), ∀ e ∈ es,
      ∃ e', e' ∈ incFirst k es ∧ e'.key = e.key ∧ (e.key ≠ k → e' = e)
  | [], e, he => by simp at he
  | f :: fs, e, he => by
    by_cases hf : f.key = k
    · simp only [incFirst, if_pos hf]
      rcases List.mem_cons.mp he with h | h
      · by_cases hek : e.key = k
        · exact ⟨⟨f.key, f.value + 1⟩, by simp, by rw [h], fun hne => absurd hek hne⟩
        · exfalso
          rw [h] at hek
          exact hek hf
      · exact ⟨e, List.mem_cons_of_mem _ h, rfl, fun _ => rfl⟩
    · simp only [incFirst, if_neg hf]
      rcases List.mem_cons.mp he with h | h
      · refine ⟨e, ?_, rfl, fun _ => rfl⟩
        rw [h]
        exact List.mem_cons_self f _
      · obtain ⟨e', he', hk', heq'⟩ := incFirst_preserve k fs e h
        exact ⟨e', List.mem_cons_of_mem f he', hk', heq'⟩

theorem chainInc_preserve (k : Nat) (es : List entry) (e : entry) (he : e ∈ es) :
    ∃ e', e' ∈ chainInc k es ∧ e'.key = e.key ∧ (e.key ≠ k → e' = e) := by
  by_cases hex : ∃ x ∈ es, x.key = k
  · rw [chainInc_of_mem k es hex]
    exact incFirst_preserve k es e he
  · push_neg at hex
    rw [chainInc_of_not_mem k es hex]
    exact ⟨e, List.mem_cons_of_mem _ he, rfl, fun _ => rfl⟩

/-! ### The table invariant maintained by `inc` -/

/-- Invariant of a table reached from the zero value by the successful
calls `inc k` for `k` in `ks` (in order): every entry sits in the
bucket selected by `hash`, carries the number of increments of its key,
chains hold no duplicate keys, and every incremented key is present. -/
def tableInv (ks : List Nat) (t : hashCounter) : Prop :=
  (∀ i : Nat, ∀ e ∈ t.entries i, validKey e.key ∧ (hash e.key).toNat = i ∧
      e.value = ks.count e.key ∧ e.key ∈ ks) ∧
  (∀ i : Nat, ((t.entries i).map entry.key).Nodup) ∧
  (∀ k : Nat, validKey k → k ∈ ks →
    ∃ e, e ∈ t.entries (hash k).toNat ∧ e.key = k)

theorem tableInv_empty : tableInv [] hashCounter.empty := by
  refine ⟨?_, ?_, ?_⟩
  · intro i e he
    simp [hashCounter.empty] at he
  · intro i
    simp [hashCounter.empty]
  · intro k _ hk
    simp at hk

theorem chainGet_eq_count (ks : List Nat) (t : hashCounter) (k : Nat)
    (h1 : ∀ i : Nat, ∀ e ∈ t.entries i, validKey e.key ∧ (hash e.key).toNat = i ∧
      e.value = ks.count e.key ∧ e.key ∈ ks)
    (h2 : ∀ i : Nat, ((t.entries i).map entry.key).Nodup)
    (h3 : ∀ k : Nat, validKey k → k ∈ ks →
      ∃ e, e ∈ t.entries (hash k).toNat ∧ e.key = k)
    (hk : validKey k) :
    chainGet k (t.entries (hash k).toNat) = ks.count k := by
  by_cases hkks : k ∈ ks
  · obtain ⟨e0, he0, hke0⟩ := h3 k hk hkks
    rw [chainGet_eq_of_mem k _ (h2 _) e0 he0 hke0, (h1 _ e0 he0).2.2.1, hke0]
  · have hne : ∀ e ∈ t.entries (hash k).toNat, e.key ≠ k := by
      intro e he hek
      exact hkks (hek ▸ (h1 _ e he).2.2.2)
    rw [chainGet_eq_zero k _ hne, List.count_eq_zero.mpr hkks]

theorem tableInv_inc (ks : List Nat) (t : hashCounter) (k : Nat)
    (hinv : tableInv ks t) (hk : validKey k) :
    ∃ t', t.inc k = some t' ∧ tableInv (ks ++ [k]) t' := by
  obtain ⟨h1, h2, h3⟩ := hinv
  have hcg : chainGet k (t.entries (hash k).toNat) = ks.count k :=
    chainGet_eq_count ks t k h1 h2 h3 hk
  refine ⟨⟨fun i => if i = (hash k).toNat then chainInc k (t.entries i)
      else t.entries i⟩, ?_, ?_, ?_, ?_⟩
  · simp only [hashCounter.inc]
    rw [if_pos hk]
  · -- entry description
    intro i e he
    simp only at he
    by_cases hib : i = (hash k).toNat
    · subst hib
      rw [if_pos rfl] at he
      rcases (mem_chainInc k _ (h2 _) e).mp he with ⟨hmem, hne⟩ | heq
      · obtain ⟨hv, hh, hval, hm⟩ := h1 _ e hmem
        refine ⟨hv, hh, ?_, List.mem_append_left _ hm⟩
        rw [List.count_append, List.count_singleton]
        have : (k == e.key) = false := by
          simp [Ne.symm hne]
        rw [this]
        simpa using hval
      · subst heq
        refine ⟨hk, rfl, ?_, List.mem_append_right _ (by simp)⟩
        rw [List.count_append, List.count_singleton]
        simp [hcg]
    · rw [if_neg hib] at he
      obtain ⟨hv, hh, hval, hm⟩ := h1 i e he
      have hne : e.key ≠ k := by
        intro hek
        exact hib (by rw [← hh, hek])
      refine ⟨hv, hh, ?_, List.mem_append_left _ hm⟩
      rw [List.count_append, List.count_singleton]
      have : (k == e.key) = false := by
        simp [Ne.symm hne]
      rw [this]
      simpa using hval
  · -- nodup keys
    intro i
    simp only
    by_cases hib : i = (hash k).toNat
    · rw [if_pos hib]
      exact chainInc_nodup k _ (h2 i)
    · rw [if_neg hib]
      exact h2 i
  · -- completeness
    intro k' hk' hk'mem
    simp only
    by_cases hkk : k' = k
    · subst hkk
      rw [if_pos rfl]
      exact ⟨⟨k', chainGet k' (t.entries (hash k').toNat) + 1⟩,
        (mem_chainInc k' _ (h2 _) _).mpr (Or.inr rfl), rfl⟩
    · have hk'ks : k' ∈ ks := by
        rcases List.mem_append.mp hk'mem with h | h
        · exact h
        · exact absurd (List.mem_singleton.mp h) hkk
      obtain ⟨e0, he0, hke0⟩ := h3 k' hk' hk'ks
      by_cases hb : (hash k').toNat = (hash k).toNat
      · rw [if_pos hb]
        exact ⟨e0, (mem_chainInc k _ (h2 _) e0).mpr
          (Or.inl ⟨he0, by rw [hke0]; exact hkk⟩), hke0⟩
      · rw [if_neg hb]
        exact ⟨e0, he0, hke0⟩

theorem incs_inv : ∀ (ks ks₀ : List Nat) (t : hashCounter), tableInv ks₀ t →
    (∀ k ∈ ks, validKey k) →
    ∃ t', incs t ks = some t' ∧ tableInv (ks₀ ++ ks) t'
  | [], ks₀, t, hinv, _ => ⟨t, rfl, by simpa using hinv⟩
  | k :: ks, ks₀, t, hinv, hval => by
    obtain ⟨t1, hinc, hinv1⟩ := tableInv_inc ks₀ t k hinv (hval k (by simp))
    obtain ⟨t', hincs, hinv'⟩ :=
      incs_inv ks (ks₀ ++ [k]) t1 hinv1 (fun x hx => hval x (by simp [hx]))
    refine ⟨t', ?_, ?_⟩
    · simp only [incs, List.foldlM_cons] at hincs ⊢
      rw [hinc]
      simpa using hincs
    · simpa [List.append_assoc] using hinv'

theorem incs_spec (ks : List Nat) (hval : ∀ k ∈ ks, validKey k) :
    ∃ t, incs hashCounter.empty ks = some t ∧ tableInv ks t := by
  obtain ⟨t, h1, h2⟩ := incs_inv ks [] hashCounter.empty tableInv_empty hval
  exact ⟨t, h1, by simpa using h2⟩

theorem get_of_inv (ks : List Nat) (t : hashCounter) (k : Nat)
    (hinv : tableInv ks t) (hk : validKey k) :
    t.get k = some (ks.count k) := by
  obtain ⟨h1, h2, h3⟩ := hinv
  simp only [hashCounter.get]
  rw [if_pos hk]
  exact congrArg some (chainGet_eq_count ks t k h1 h2 h3 hk)

/-! ### Locating the entries of one key across the whole table -/

theorem flatten_map_single {α : Type} (f : Nat → List α) :
    ∀ (n i0 : Nat), i0 < n → (∀ i, i < n → i ≠ i0 → f i = []) →
      ((List.range n).map f).flatten = f i0
  | 0, i0, h, _ => absurd h (Nat.not_lt_zero _)
  | n + 1, i0, hi, hf => by
    rw [List.range_succ, List.map_append, List.flatten_append]
    by_cases h : i0 = n
    · subst h
      have hpre : ((List.range i0).map f).flatten = [] := by
        apply List.flatten_eq_nil_iff.mpr
        intro l hl
        obtain ⟨i, hi2, rfl⟩ := List.mem_map.mp hl
        have := List.mem_range.mp hi2
        exact hf i (by omega) (by omega)
      rw [hpre]
      simp
    · have hi2 : i0 < n := by omega
      rw [flatten_map_single f n i0 hi2 (fun i a b => hf i (by omega) b)]
      have hn : f n = [] := hf n (by omega) (fun hn => h hn.symm)
      simp [hn]

theorem filter_key_eq_nil (k : Nat) (es : List entry)
    (h : ∀ e ∈ es, e.key ≠ k) :
    es.filter (fun e => e.key == k) = [] := by
  apply List.filter_eq_nil_iff.mpr
  intro e he
  simp [h e he]

theorem filter_key_singleton (k : Nat) :
    ∀ (es : List entry), (es.map entry.key).Nodup →
      ∀ e ∈ es, e.key = k → es.filter (fun x => x.key == k) = [e]
  | [], _, e, he, _ => by simp at he
  | e0 :: es, hnd, e, he, hek => by
    simp only [List.map_cons, List.nodup_cons] at hnd
    by_cases h0 : e0.key = k
    · have heq : e = e0 := by
        rcases List.mem_cons.mp he with h | h
        · exact h
        · exfalso
          have hmem : e.key ∈ es.map entry.key := List.mem_map_of_mem entry.key h
          rw [hek, ← h0] at hmem
          exact hnd.1 hmem
      rw [List.filter_cons_of_pos (by simp [h0])]
      have hrest : es.filter (fun x => x.key == k) = [] := by
        apply filter_key_eq_nil
        intro x hx hxk
        apply hnd.1
        rw [h0, ← hxk]
        exact List.mem_map_of_mem entry.key hx
      rw [hrest, heq]
    · have hmem : e ∈ es := by
        rcases List.mem_cons.mp he with h | h
        · exact absurd (h ▸ hek) h0
        · exact h
      rw [List.filter_cons_of_neg (by simp [h0])]
      exact filter_key_singleton k es hnd.2 e hmem hek

theorem entriesFor_of_inv (ks : List Nat) (t : hashCounter) (k : Nat)
    (hinv : tableInv ks t) (hkv : k ∈ ks → validKey k) :
    entriesFor t k = if k ∈ ks then [⟨k, ks.count k⟩] else [] := by
  obtain ⟨h1, h2, h3⟩ := hinv
  by_cases hkks : k ∈ ks
  · rw [if_pos hkks]
    have hk := hkv hkks
    obtain ⟨e0, he0, hke0⟩ := h3 k hk hkks
    have hbd : (hash k).toNat < hashSize := by
      have ha := hk.1
      have hb := hk.2
      omega
    have hside : ∀ i, i < hashSize → i ≠ (hash k).toNat →
        (t.entries i).filter (fun e => e.key == k) = [] := by
      intro i _ hne
      apply filter_key_eq_nil
      intro e he hek
      exact hne (by rw [← (h1 i e he).2.1, hek])
    unfold entriesFor
    rw [flatten_map_single _ hashSize (hash k).toNat hbd hside]
    rw [filter_key_singleton k _ (h2 _) e0 he0 hke0]
    obtain ⟨hv, hh, hval, hm⟩ := h1 _ e0 he0
    have : e0 = ⟨k, ks.count k⟩ := by
      obtain ⟨ek, ev⟩ := e0
      simp only [entry.mk.injEq]
      simp only at hke0 hval
      subst hke0
      exact ⟨rfl, by simpa using hval⟩
    rw [this]
  · rw [if_neg hkks]
    apply List.flatten_eq_nil_iff.mpr
    intro l hl
    obtain ⟨i, _, rfl⟩ := List.mem_map.mp hl
    apply filter_key_eq_nil
    intro e he hek
    exact hkks (hek ▸ (h1 i e he).2.2.2)

/-! ### `count` as iterated `inc` over the window keys -/

theorem foldlM_map_option {α β σ : Type} (g : α → β) (f : σ → β → Option σ) :
    ∀ (l : List α) (s : σ), (l.map g).foldlM f s = l.foldlM (fun x a => f x (g a)) s
  | [], _ => rfl
  | a :: l, s => by
    simp only [List.map_cons, List.foldlM_cons]
    cases hfa : f s (g a) with
    | none => simp
    | some s2 => simp [foldlM_map_option g f l s2]

theorem count_eq_incs (dna : List Nat) (length : Nat) :
    count dna length = incs hashCounter.empty (keyList dna length) := by
  unfold count keyList incs
  rw [foldlM_map_option]

theorem window_length (dna : List Nat) (L i : Nat) (h : i + L ≤ dna.length) :
    (window dna L i).length = L := by
  simp only [window, List.length_take, List.length_drop]
  omega

theorem window_codes (dna : List Nat) (L i : Nat) (h : ∀ c ∈ dna, c ≤ 3) :
    ∀ c ∈ window dna L i, c ≤ 3 :=
  fun c hc => h c (List.mem_of_mem_drop (List.mem_of_mem_take hc))

theorem encode_lt_of_codes (w : List Nat) (hw : ∀ c ∈ w, c ≤ 3)
    (hlen : 2 * w.length ≤ 62) : encode w < 2 ^ 63 := by
  rw [encode_eq_natVal w hw (by omega)]
  calc natVal w < 4 ^ w.length := natVal_lt w hw
    _ = 2 ^ (2 * w.length) := by rw [Nat.pow_mul]
    _ ≤ 2 ^ 62 := Nat.pow_le_pow_right (by norm_num) hlen
    _ < 2 ^ 63 := by norm_num

theorem keyList_valid (dna : List Nat) (L : Nat) (hdna : ∀ c ∈ dna, c ≤ 3)
    (hL : 2 * L ≤ 62) : ∀ k ∈ keyList dna L, validKey k := by
  intro k hk
  obtain ⟨i, _, rfl⟩ := List.mem_map.mp hk
  apply validKey_of_lt
  apply encode_lt_of_codes _ (window_codes dna L i hdna)
  have : (window dna L i).length ≤ L := by
    simp only [window, List.length_take]
    omega
  omega

theorem count_map_length_filter {g : Nat → Nat} (a : Nat) :
    ∀ l : List Nat, (l.map g).count a = (l.filter (fun i => g i == a)).length
  | [] => rfl
  | x :: l => by
    simp only [List.map_cons, List.count_cons, List.filter_cons]
    by_cases h : (g x == a) = true
    · rw [if_pos h, if_pos h, List.length_cons, count_map_length_filter a l]
    · rw [if_neg h, if_neg (by simpa using h), count_map_length_filter a l]
      simp

theorem count_keyList_eq_brute (dna : List Nat) (L : Nat) (w : List Nat)
    (hdna : ∀ c ∈ dna, c ≤ 3) (hw : ∀ c ∈ w, c ≤ 3) (hwlen : w.length = L)
    (hL : 2 * L ≤ 62) :
    (keyList dna L).count (encode w) = bruteCount dna L w := by
  unfold keyList bruteCount
  rw [count_map_length_filter]
  congr 1
  apply List.filter_congr
  intro i hi
  have hiN : i < numWindows dna.length L := List.mem_range.mp hi
  have hib : i + L ≤ dna.length := by
    unfold numWindows at hiN
    omega
  have hwin_len : (window dna L i).length = L := window_length dna L i hib
  have hwc := window_codes dna L i hdna
  rw [Bool.eq_iff_iff]
  simp only [beq_iff_eq]
  constructor
  · intro hE
    apply natVal_inj _ _ hwc hw (by rw [hwin_len, hwlen])
    rw [← encode_eq_natVal _ hwc (by omega), ← encode_eq_natVal _ hw (by omega)]
    exact hE
  · intro h
    rw [h]

/-- C1: with every code in `[0,3]` and `2*L ≤ 62` — the claim says
`2*L ≤ 64`, but at `L = 32` a window key can reach `2 ^ 63` and the Go
`int` conversion then makes the bucket index negative (see the
counterexample) — `count` succeeds, `get` on the key of any length-`L`
window returns exactly the brute-force occurrence count, and a buffer
shorter than `L` yields the empty table. -/
theorem claim_C1 (dna : List Nat) (L : Nat) (hdna : ∀ c ∈ dna, c ≤ 3)
    (hL : 2 * L ≤ 62) :
    ∃ t, count dna L = some t ∧
      (∀ w, (∀ c ∈ w, c ≤ 3) → w.length = L →
        t.get (encode w) = some (bruteCount dna L w)) ∧
      (dna.length < L → ∀ i, t.entries i = []) := by
  have hval := keyList_valid dna L hdna hL
  obtain ⟨t, hincs, hinv⟩ := incs_spec (keyList dna L) hval
  refine ⟨t, by rw [count_eq_incs]; exact hincs, ?_, ?_⟩
  · intro w hw hwlen
    have hwval : validKey (encode w) :=
      validKey_of_lt _ (encode_lt_of_codes w hw (by omega))
    rw [get_of_inv (keyList dna L) t (encode w) hinv hwval,
      count_keyList_eq_brute dna L w hdna hw hwlen hL]
  · intro hlen i
    have hkl : keyList dna L = [] := by
      unfold keyList numWindows
      have hz : dna.length + 1 - L = 0 := by omega
      rw [hz]
      rfl
    rw [hkl] at hincs
    have h2 : some hashCounter.empty = some t := hincs
    obtain rfl : hashCounter.empty = t := Option.some.inj h2
    rfl

/-- C1 counterexample: at `L = 32` (allowed by the claim, `2*L ≤ 64`)
the single window of this 32-code buffer occurs once, but its key is
`3*4^31 + 1 ≥ 2^63`, the bucket index is negative, and the run panics
(`none`) instead of returning the count `1`. -/
theorem claim_C1_cex :
    2 * 32 ≤ 64 ∧
    (3 :: (List.replicate 30 0 ++ [1]) : List Nat).all (fun c => c ≤ 3) = true ∧
    bruteCount (3 :: (List.replicate 30 0 ++ [1])) 32
      (3 :: (List.replicate 30 0 ++ [1])) = 1 ∧
    (count (3 :: (List.replicate 30 0 ++ [1])) 32).bind
      (fun t => t.get (encode (3 :: (List.replicate 30 0 ++ [1])))) = none :=
  ⟨by decide, by decide, by decide, by decide⟩

/-- C1 witness: the scenario of §8 of the spec — buffer `AAAA`
(codes `[0,0,0,0]`), `L = 2`. -/
theorem claim_C1_witness :
    ∃ t, count [0, 0, 0, 0] 2 = some t ∧
      (∀ w, (∀ c ∈ w, c ≤ 3) → w.length = 2 →
        t.get (encode w) = some (bruteCount [0, 0, 0, 0] 2 w)) ∧
      ([0, 0, 0, 0].length < 2 → ∀ i, t.entries i = []) :=
  claim_C1 [0, 0, 0, 0] 2 (by decide) (by decide)

/-- C2 (amended): for every key below `2 ^ 63` — the claim says every
`uint64` key, but the Go `int` conversion makes the bucket index
negative for keys with the top bit set (see the counterexample) — the
bucket index equals `key mod hashSize`, equals the low 18 bits of the
key, lies in `[0, hashSize)`, and the array indexing in `get` and
`inc` succeeds. -/
theorem claim_C2 (k : Nat) (hk : k < 2 ^ 63) :
    hash k = ((k % hashSize : Nat) : Int) ∧
    hash k = ((k &&& (2 ^ 18 - 1) : Nat) : Int) ∧
    0 ≤ hash k ∧ hash k < (hashSize : Nat) ∧
    (∀ t : hashCounter, (t.get k).isSome = true) ∧
    (∀ t : hashCounter, (t.inc k).isSome = true) := by
  have h1 := hash_of_lt k hk
  have hv := validKey_of_lt k hk
  refine ⟨h1, ?_, hv.1, hv.2, ?_, ?_⟩
  · rw [h1, Nat.and_pow_two_sub_one_eq_mod, hashSize_eq]
  · intro t
    simp only [hashCounter.get]
    rw [if_pos hv]
    rfl
  · intro t
    simp only [hashCounter.inc]
    rw [if_pos hv]
    rfl

/-- C2 counterexample: at key `2 ^ 63 + 1` the Go `int` conversion is
negative, `%` returns `-262143`, the index is out of range, and both
`get` and `inc` panic instead of indexing a bucket. -/
theorem claim_C2_cex :
    hash (2 ^ 63 + 1) = -262143 ∧
    ¬ 0 ≤ hash (2 ^ 63 + 1) ∧
    hash (2 ^ 63 + 1) ≠ (((2 ^ 63 + 1) % hashSize : Nat) : Int) ∧
    (hashCounter.empty.get (2 ^ 63 + 1)).isSome = false ∧
    (hashCounter.empty.inc (2 ^ 63 + 1)).isSome = false := by
  refine ⟨by decide, by decide, by decide, by decide, by decide⟩

/-- C2 witness at key `12345`. -/
theorem claim_C2_witness :
    hash 12345 = ((12345 % hashSize : Nat) : Int) ∧
    hash 12345 = ((12345 &&& (2 ^ 18 - 1) : Nat) : Int) ∧
    0 ≤ hash 12345 ∧ hash 12345 < (hashSize : Nat) ∧
    (∀ t : hashCounter, (t.get 12345).isSome = true) ∧
    (∀ t : hashCounter, (t.inc 12345).isSome = true) :=
  claim_C2 12345 (by decide)

/-- C3 (amended): the `toNum` replacer applies neither of the two
policies the claim allows — it maps every byte outside `{A,C,G,T}` to
itself, so non-alphabet bytes flow unchanged through encoding into the
buffer (and from there into window keys). -/
theorem claim_C3 (b : Nat) (h65 : b ≠ 65) (h67 : b ≠ 67) (h71 : b ≠ 71)
    (h84 : b ≠ 84) : toNumByte b = b ∧ readModel [[b]] = [b] := by
  have ht : toNumByte b = b := by
    simp [toNumByte, h65, h67, h71, h84]
  exact ⟨ht, by simp [readModel, ht]⟩

/-- C3 counterexample: byte 78 (ASCII `N`) is neither rejected nor
mapped to a fixed sentinel — it passes through unchanged (and so does
66, a different value, so no single reserved code exists) and is ORed
raw into the window key. -/
theorem claim_C3_cex :
    toNumByte 78 = 78 ∧ toNumByte 66 = 66 ∧ toNumByte 78 ≠ toNumByte 66 ∧
    readModel [[71, 78]] = [2, 78] ∧ encode [2, 78] = 78 := by
  refine ⟨by decide, by decide, by decide, by decide, by decide⟩

/-- C3 witness at byte 78. -/
theorem claim_C3_witness : toNumByte 78 = 78 ∧ readModel [[78]] = [78] :=
  claim_C3 78 (by decide) (by decide) (by decide) (by decide)

/-- C4: starting from the empty table, after any sequence of successful
`inc` calls the whole table (all `hashSize` buckets) holds exactly one
entry for each distinct incremented key, whose value is the number of
`inc` calls with that key, and no entry for any other key. -/
theorem claim_C4 (ks : List Nat) (hks : ∀ k ∈ ks, validKey k) :
    ∃ t, incs hashCounter.empty ks = some t ∧
      ∀ k, entriesFor t k = if k ∈ ks then [⟨k, ks.count k⟩] else [] := by
  obtain ⟨t, hincs, hinv⟩ := incs_spec ks hks
  exact ⟨t, hincs, fun k => entriesFor_of_inv ks t k hinv (fun hm => hks k hm)⟩

/-- C4 witness: keys `5` and `262149 = hashSize + 5` collide into
bucket 5; after `inc 5`, `inc 5`, `inc 262149` the table holds exactly
one entry `(5, 2)` and one entry `(262149, 1)`. -/
theorem claim_C4_witness :
    ∃ t, incs hashCounter.empty [5, 5, 262149] = some t ∧
      ∀ k, entriesFor t k = if k ∈ [5, 5, 262149]
        then [⟨k, [5, 5, 262149].count k⟩] else [] :=
  claim_C4 [5, 5, 262149] (by decide)

/-- C7 (amended): on any table reachable by successful `inc` calls,
`get` of a key that was never incremented returns `0` — provided the
key's bucket index is in range (the claim says every key, but `get` of
a key at or above `2 ^ 63` panics, see the counterexample). -/
theorem claim_C7 (ks : List Nat) (k : Nat) (hks : ∀ x ∈ ks, validKey x)
    (hk : validKey k) (hnot : k ∉ ks) :
    ∃ t, incs hashCounter.empty ks = some t ∧ t.get k = some 0 := by
  obtain ⟨t, hincs, hinv⟩ := incs_spec ks hks
  refine ⟨t, hincs, ?_⟩
  rw [get_of_inv ks t k hinv hk, List.count_eq_zero.mpr hnot]

/-- C7 counterexample: on the empty table (reachable by zero `inc`
calls) `get (2 ^ 63 + 1)` — a key never incremented — panics (`none`)
instead of returning `0`. -/
theorem claim_C7_cex :
    incs hashCounter.empty [] = some hashCounter.empty ∧
    hashCounter.empty.get (2 ^ 63 + 1) = none :=
  ⟨rfl, by decide⟩

/-- C7 witness: after `inc 5`, `get 7` returns `0`. -/
theorem claim_C7_witness :
    ∃ t, incs hashCounter.empty [5] = some t ∧ t.get 7 = some 0 :=
  claim_C7 [5] 7 (by decide) (by decide) (by decide)

/-- C9: encoding and counting are deterministic — equal inputs give
equal keys, equal `count` results, and tables with equal `get` answers
on every key. -/
theorem claim_C9 (s s2 dna dna2 : List Nat) (L : Nat) (hs : s = s2)
    (hd : dna = dna2) :
    encode s = encode s2 ∧ count dna L = count dna2 L ∧
    (∀ t t2, count dna L = some t → count dna2 L = some t2 →
      ∀ k, t.get k = t2.get k) := by
  subst hs
  subst hd
  refine ⟨rfl, rfl, ?_⟩
  intro t t2 h1 h2 k
  rw [h1] at h2
  obtain rfl : t = t2 := Option.some.inj h2
  rfl

/-- C9 witness on a concrete input. -/
theorem claim_C9_witness :
    encode [0, 1] = encode [0, 1] ∧
    count [0, 1, 2] 2 = count [0, 1, 2] 2 ∧
    (∀ t t2, count [0, 1, 2] 2 = some t → count [0, 1, 2] 2 = some t2 →
      ∀ k, t.get k = t2.get k) :=
  claim_C9 [0, 1] [0, 1] [0, 1, 2] [0, 1, 2] 2 rfl rfl

/-- C10: a successful `inc k` is frame-preserving — all other buckets
are untouched, entries with key other than `k` are kept with their key
and value, no entry is removed or moved, and a new entry (with value
`1`, prepended in `k`'s bucket) is created exactly when no entry for
`k` existed in that bucket. -/
theorem claim_C10 (t : hashCounter) (k : Nat) (hk : validKey k) :
    ∃ t', t.inc k = some t' ∧
      (∀ i, i ≠ (hash k).toNat → t'.entries i = t.entries i) ∧
      (∀ i, (t'.entries i).filter (fun e => !(e.key == k)) =
        (t.entries i).filter (fun e => !(e.key == k))) ∧
      (∀ i, ∀ e ∈ t.entries i, ∃ e', e' ∈ t'.entries i ∧ e'.key = e.key ∧
        (e.key ≠ k → e' = e)) ∧
      ((∀ e ∈ t.entries (hash k).toNat, e.key ≠ k) →
        t'.entries (hash k).toNat = ⟨k, 1⟩ :: t.entries (hash k).toNat) ∧
      ((∃ e ∈ t.entries (hash k).toNat, e.key = k) →
        (t'.entries (hash k).toNat).length =
          (t.entries (hash k).toNat).length) := by
  refine ⟨⟨fun i => if i = (hash k).toNat then chainInc k (t.entries i)
      else t.entries i⟩, ?_, ?_, ?_, ?_, ?_, ?_⟩
  · simp only [hashCounter.inc]
    rw [if_pos hk]
  · intro i hi
    exact if_neg hi
  · intro i
    show (if i = (hash k).toNat then chainInc k (t.entries i)
        else t.entries i).filter (fun e => !(e.key == k)) =
      (t.entries i).filter (fun e => !(e.key == k))
    by_cases hi : i = (hash k).toNat
    · rw [if_pos hi]
      exact chainInc_filter_ne k (t.entries i)
    · rw [if_neg hi]
  · intro i e he
    show ∃ e', e' ∈ (if i = (hash k).toNat then chainInc k (t.entries i)
        else t.entries i) ∧ e'.key = e.key ∧ (e.key ≠ k → e' = e)
    by_cases hi : i = (hash k).toNat
    · rw [if_pos hi]
      exact chainInc_preserve k (t.entries i) e he
    · rw [if_neg hi]
      exact ⟨e, he, rfl, fun _ => rfl⟩
  · intro hnone
    show (if (hash k).toNat = (hash k).toNat then
        chainInc k (t.entries (hash k).toNat)
      else t.entries (hash k).toNat) = _
    rw [if_pos rfl]
    exact chainInc_of_not_mem k _ hnone
  · intro hex
    show (if (hash k).toNat = (hash k).toNat then
        chainInc k (t.entries (hash k).toNat)
      else t.entries (hash k).toNat).length = _
    rw [if_pos rfl, chainInc_of_mem k _ hex]
    exact incFirst_length k _

/-- C10 witness: `inc 5` on the empty table. -/
theorem claim_C10_witness :
    ∃ t', hashCounter.empty.inc 5 = some t' ∧
      (∀ i, i ≠ (hash 5).toNat → t'.entries i = hashCounter.empty.entries i) ∧
      (∀ i, (t'.entries i).filter (fun e => !(e.key == 5)) =
        (hashCounter.empty.entries i).filter (fun e => !(e.key == 5))) ∧
      (∀ i, ∀ e ∈ hashCounter.empty.entries i, ∃ e', e' ∈ t'.entries i ∧
        e'.key = e.key ∧ (e.key ≠ 5 → e' = e)) ∧
      ((∀ e ∈ hashCounter.empty.entries (hash 5).toNat, e.key ≠ 5) →
        t'.entries (hash 5).toNat =
          ⟨5, 1⟩ :: hashCounter.empty.entries (hash 5).toNat) ∧
      ((∃ e ∈ hashCounter.empty.entries (hash 5).toNat, e.key = 5) →
        (t'.entries (hash 5).toNat).length =
          (hashCounter.empty.entries (hash 5).toNat).length) :=
  claim_C10 hashCounter.empty 5 (by decide)

/-- C5: with codes in `[0,3]` and `2*L ≤ 64`, the incremental update of
the spec (shift left 2, OR in the entering code, mask to `2*L` bits)
applied to the previous window's from-scratch key yields exactly the
from-scratch `encode` of the window at position `i ≥ 1`, so the
incremental recurrence and the per-window recomputation agree at every
position. -/
theorem claim_C5 (dna : List Nat) (L i : Nat) (hdna : ∀ c ∈ dna, c ≤ 3)
    (hL : 2 * L ≤ 64) (hi : 1 ≤ i) (hiL : i + L ≤ dna.length) :
    incStepSpec L (encode (window dna L (i - 1))) (dna.getD (i + L - 1) 0) =
      encode (window dna L i) := by
  rcases Nat.eq_zero_or_pos L with hL0 | hLpos
  · subst hL0
    simp [window, incStepSpec, encode]
  · have hlen : i - 1 < dna.length := by omega
    have hcl : i + L - 1 < dna.length := by omega
    have ha : dna.getD (i - 1) 0 ≤ 3 := hdna _ (getD_mem 0 dna (i - 1) hlen)
    have hc : dna.getD (i + L - 1) 0 ≤ 3 := hdna _ (getD_mem 0 dna (i + L - 1) hcl)
    have hcu : ∀ x ∈ (dna.drop i).take (L - 1), x ≤ 3 :=
      fun x hx => hdna x (List.mem_of_mem_drop (List.mem_of_mem_take hx))
    have hlu : ((dna.drop i).take (L - 1)).length = L - 1 := by
      simp only [List.length_take, List.length_drop]
      omega
    have hwin1 : window dna L (i - 1) = dna.getD (i - 1) 0 :: (dna.drop i).take (L - 1) := by
      unfold window
      have hd : dna.drop (i - 1) = dna.getD (i - 1) 0 :: dna.drop i := by
        rw [drop_eq_getD_cons 0 dna (i - 1) hlen]
        congr 2
        omega
      rw [hd]
      have hLs : L = (L - 1) + 1 := by omega
      conv_lhs => rw [hLs]
      rw [List.take_succ_cons]
    have hwin2 : window dna L i =
        (dna.drop i).take (L - 1) ++ [dna.getD (i + L - 1) 0] := by
      unfold window
      have hLs : L = (L - 1) + 1 := by omega
      conv_lhs => rw [hLs]
      rw [take_eq_append_getD 0 (dna.drop i) (L - 1)
        (by simp only [List.length_drop]; omega)]
      have hgd : (dna.drop i).getD (L - 1) 0 = dna.getD (i + L - 1) 0 := by
        rw [List.getD_eq_getElem?_getD, List.getD_eq_getElem?_getD,
          List.getElem?_drop]
        congr 2
        omega
      rw [hgd]
    have henc1 : encode (window dna L (i - 1)) =
        dna.getD (i - 1) 0 * 4 ^ (L - 1) + natVal ((dna.drop i).take (L - 1)) := by
      rw [hwin1, encode_eq_natVal _ ?hcode ?hlen2, natVal_cons, hlu]
      case hcode =>
        intro x hx
        rcases List.mem_cons.mp hx with h | h
        · rw [h]; exact ha
        · exact hcu x h
      case hlen2 =>
        simp only [List.length_cons, hlu]
        omega
    have henc2 : encode (window dna L i) =
        natVal ((dna.drop i).take (L - 1)) * 4 + dna.getD (i + L - 1) 0 := by
      rw [hwin2, encode_eq_natVal _ ?hcode2 ?hlen3, natVal_append_singleton]
      case hcode2 =>
        intro x hx
        rcases List.mem_append.mp hx with h | h
        · exact hcu x h
        · rw [List.mem_singleton.mp h]; exact hc
      case hlen3 =>
        simp only [List.length_append, List.length_cons, List.length_nil, hlu]
        omega
    rw [henc1, henc2]
    unfold incStepSpec
    rw [Nat.shiftLeft_eq]
    have h4 : (2 : Nat) ^ 2 = 4 := by norm_num
    rw [h4, lor_four_mul _ _ (by omega : dna.getD (i + L - 1) 0 < 4),
      Nat.and_pow_two_sub_one_eq_mod]
    have hpow : (2 : Nat) ^ (2 * L) = 4 ^ L := by rw [Nat.pow_mul]
    rw [hpow]
    have hnu : natVal ((dna.drop i).take (L - 1)) < 4 ^ (L - 1) := by
      have hv := natVal_lt _ hcu
      rwa [hlu] at hv
    have hL1 : (4 : Nat) ^ L = 4 ^ (L - 1) * 4 := by
      rw [← Nat.pow_succ]
      congr 1
      omega
    have hnum : (dna.getD (i - 1) 0 * 4 ^ (L - 1) +
        natVal ((dna.drop i).take (L - 1))) * 4 + dna.getD (i + L - 1) 0 =
        natVal ((dna.drop i).take (L - 1)) * 4 + dna.getD (i + L - 1) 0 +
          dna.getD (i - 1) 0 * 4 ^ L := by
      rw [hL1]
      ring
    have hlt : natVal ((dna.drop i).take (L - 1)) * 4 +
        dna.getD (i + L - 1) 0 < 4 ^ L := by
      rw [hL1]
      omega
    rw [hnum, Nat.add_mul_mod_self_right, Nat.mod_eq_of_lt hlt]

/-- C5 witness: buffer `[0,1,2,3]`, `L = 2`, position `i = 1`. -/
theorem claim_C5_witness :
    incStepSpec 2 (encode (window [0, 1, 2, 3] 2 0)) ([0, 1, 2, 3].getD 2 0) =
      encode (window [0, 1, 2, 3] 2 1) :=
  claim_C5 [0, 1, 2, 3] 2 1 (by decide) (by decide) (by decide) (by decide)

/-- C6: for code sequences over `[0,3]` of length at most 32, `encode`
returns the base-4 digit expansion (most-significant code first), and
is injective on sequences of equal length. -/
theorem claim_C6 (w : List Nat) (hw : ∀ c ∈ w, c ≤ 3) (hL : w.length ≤ 32) :
    encode w = digitsSum w ∧
    (∀ w2, (∀ c ∈ w2, c ≤ 3) → w2.length = w.length →
      (encode w2 = encode w ↔ w2 = w)) := by
  have he : encode w = natVal w := encode_eq_natVal w hw (by omega)
  refine ⟨by rw [he, natVal_eq_digitsSum], ?_⟩
  intro w2 hw2 hlen
  constructor
  · intro hE
    apply natVal_inj _ _ hw2 hw hlen
    rw [← encode_eq_natVal _ hw2 (by omega), ← encode_eq_natVal _ hw (by omega)]
    exact hE
  · intro h
    rw [h]

/-- C6 witness: the window `GG` (codes `[2,2]`). -/
theorem claim_C6_witness :
    encode [2, 2] = digitsSum [2, 2] ∧
    (∀ w2, (∀ c ∈ w2, c ≤ 3) → w2.length = [2, 2].length →
      (encode w2 = encode [2, 2] ↔ w2 = [2, 2])) :=
  claim_C6 [2, 2] (by decide) (by decide)

/-- C8 (amended): no fail-fast configuration check exists — for any
window length, `count` simply scans (returning a table whenever every
window key's bucket index is in range), and window keys are reduced
modulo `2 ^ 64`, so with `2*L > 64` distinct windows can receive equal
keys (see the counterexample). -/
theorem claim_C8 (dna : List Nat) (L : Nat)
    (hval : ∀ k ∈ keyList dna L, validKey k) :
    (count dna L).isSome = true ∧
    (∀ w, (∀ c ∈ w, c ≤ 3) → encode w = natVal w % 2 ^ 64) := by
  refine ⟨?_, fun w hw => encode_eq_natVal_mod w hw⟩
  obtain ⟨t, hincs, _⟩ := incs_spec (keyList dna L) hval
  rw [count_eq_incs, hincs]
  rfl

/-- C8 counterexample: at `L = 33` (`2*L = 66 > 64`) `count` proceeds
instead of failing fast; the two distinct windows of this buffer alias
to the same key `0` modulo `2 ^ 64`, which is counted twice. -/
theorem claim_C8_cex :
    2 * 33 > 64 ∧
    (count (1 :: List.replicate 33 0) 33).isSome = true ∧
    (count (1 :: List.replicate 33 0) 33).bind (fun t => t.get 0) = some 2 ∧
    encode (1 :: List.replicate 32 0) = encode (List.replicate 33 0) ∧
    (1 :: List.replicate 32 0) ≠ List.replicate 33 0 := by
  refine ⟨by decide, by decide, by decide, by decide, by decide⟩

/-- C8 witness: the counterexample buffer itself, `L = 33`. -/
theorem claim_C8_witness :
    (count (1 :: List.replicate 33 0) 33).isSome = true ∧
    (∀ w, (∀ c ∈ w, c ≤ 3) → encode w = natVal w % 2 ^ 64) :=
  claim_C8 (1 :: List.replicate 33 0) 33 (by decide)

end KNucleotide
